import Mathlib

/-!
Shallow embedding of `lazypp` (include/lazypp.hpp), a lazy-sequence library.

Every iterator of the library exposes one operation, `next()`, returning an
optional value.  We embed an iterator as a *state type* `σ` together with a
step function `σ → Option α × σ`: calling `next()` on the C++ object
corresponds to applying the step function to the current state, obtaining the
returned optional and the mutated state.  Each combinator of the source is a
function on step functions, with the extra state its C++ class keeps paired
onto the base state (`take_iterator` keeps `num_ : size_t`, modelled as `Nat`;
`take_while_iterator` keeps `ended_ : bool`).
-/

namespace LazyPP

variable {σ α β : Type}

/-- Embeds `map_iterator::next` (lazypp.hpp lines 26-32): pull one value from the
base iterator; if present, apply `map_func_` and return the image, otherwise
return an empty optional.  The state is the base iterator's state. -/
def map_next (f : α → β) (bnext : σ → Option α × σ) (s : σ) : Option β × σ :=
  match bnext s with
  | (some v, s') => (some (f v), s')
  | (none, s') => (none, s')

/-- Ghost-instrumented variant of `map_next` that additionally counts, in a
second state component, how many times `map_func_` has been invoked.  The
counter is incremented exactly where line 29 of the source applies
`map_func_(*v)`; the visible behaviour is that of `map_next`. -/
def map_next_count (f : α → β) (bnext : σ → Option α × σ) :
    σ × Nat → Option β × (σ × Nat)
  | (s, c) =>
    match bnext s with
    | (some v, s') => (some (f v), (s', c + 1))
    | (none, s') => (none, (s', c))

/-- Embeds `filter_iterator::next` (lines 48-54): loop pulling from the base until a
value passes `filter_func_` or the base is exhausted.  The C++ loop may run
unboundedly; the embedding carries explicit fuel, returning an empty optional
when the fuel runs out (for a base backed by a finite list any fuel exceeding
the list length is enough, proved below). -/
def filter_next (p : α → Bool) (bnext : σ → Option α × σ) :
    Nat → σ → Option α × σ
  | 0, s => (none, s)
  | fuel + 1, s =>
    match bnext s with
    | (some v, s') => if p v then (some v, s') else filter_next p bnext fuel s'
    | (none, s') => (none, s')

/-- Embeds `take_iterator::next` (lines 70-78): if `num_` is nonzero, decrement it
and forward one `next()` call to the base, returning its result verbatim;
if `num_` is zero, return an empty optional and leave everything unchanged. -/
def take_next (bnext : σ → Option α × σ) : Nat × σ → Option α × (Nat × σ)
  | (0, s) => (none, (0, s))
  | (num + 1, s) =>
    let r := bnext s
    (r.1, (num, r.2))

/-- Embeds `take_while_iterator::next` (lines 111-121): once `ended_` is set, return
empty without touching the base; otherwise pull one value — if present and
passing `test_func_`, return it, else set `ended_` and return empty. -/
def take_while_next (p : α → Bool) (bnext : σ → Option α × σ) :
    Bool × σ → Option α × (Bool × σ)
  | (true, s) => (none, (true, s))
  | (false, s) =>
    match bnext s with
    | (some v, s') => if p v then (some v, (false, s')) else (none, (true, s'))
    | (none, s') => (none, (true, s'))

/-- Embeds `generate_iterator::next` (lines 94-96): always invoke `gen_func_` and
return its result wrapped as present. -/
def generate_next (g : Unit → α) : Unit → Option α × Unit :=
  fun _ => (some (g ()), ())

/-- Embeds `range_iterator::next` (lines 142-147): if `is_last_(actual_)` holds,
return empty and leave `actual_` unchanged; otherwise invoke `func_next_`,
which both returns the emitted value and mutates `actual_` (it receives the
position by reference).  We model `func_next_` as a function from the current
position to the pair (emitted value, new position). -/
def range_next {τ : Type} (is_last : τ → Bool) (func_next : τ → τ × τ)
    (actual : τ) : Option τ × τ :=
  if is_last actual then (none, actual)
  else (some (func_next actual).1, (func_next actual).2)

/-- A base iterator backed by a finite list: `next` on `x :: rest` yields `x`
and leaves `rest`; `next` on `[]` yields empty.  Used to model an arbitrary
finite well-behaved inner sequence `S`. -/
def listNext : List α → Option α × List α
  | [] => (none, [])
  | x :: xs => (some x, xs)

/-- A base iterator with completely arbitrary behaviour: `t k` is the result
of the `(k+1)`-st call to `next()`; the state is the number of calls made so
far (which also counts the calls, for the pull-budget theorems). -/
def traceNext (t : Nat → Option α) : Nat → Option α × Nat :=
  fun k => (t k, k + 1)

/-- Run `next` a given number of times, keeping only the final state. -/
def iterN (next : σ → Option α × σ) : Nat → σ → σ
  | 0, s => s
  | m + 1, s => iterN next m (next s).2

/-- Run `next` exactly `m` times, collecting the present values in order
together with the final state. -/
def runN (next : σ → Option α × σ) : Nat → σ → List α × σ
  | 0, s => ([], s)
  | m + 1, s =>
    match next s with
    | (some v, s') => let r := runN next m s'; (v :: r.1, r.2)
    | (none, s') => let r := runN next m s'; (r.1, r.2)

/-- Embeds `iterator_wrapper::each` (lines 181-186): repeatedly call `next()` until
an empty optional arrives, handing each present value to the callback in
order.  `collect` returns the list of values so handed over together with the
final state; `fuel` bounds the number of calls (any fuel larger than the
sequence length gives the full run). -/
def collect (next : σ → Option α × σ) : Nat → σ → List α × σ
  | 0, s => ([], s)
  | fuel + 1, s =>
    match next s with
    | (some v, s') => let r := collect next fuel s'; (v :: r.1, r.2)
    | (none, s') => ([], s')

/-- Embeds `iterator_wrapper` (lines 155-190): a state plus a step function. -/
structure Wrapper (σ : Type) (α : Type) where
  state : σ
  next : σ → Option α × σ

/-- Embeds `iterator_wrapper::map` (lines 162-165): wrap a `map_iterator` built from
the callback and a copy of the wrapped iterator. -/
def Wrapper.map (w : Wrapper σ α) (f : α → β) : Wrapper σ β :=
  ⟨w.state, map_next f w.next⟩

/-- Variant of `Wrapper.map` with the invocation-counting instrumentation: the counter
component starts at zero when the decorator is constructed. -/
def Wrapper.mapCount (w : Wrapper σ α) (f : α → β) : Wrapper (σ × Nat) β :=
  ⟨(w.state, 0), map_next_count f w.next⟩

/-- Embeds `iterator_wrapper::take` (lines 172-174). -/
def Wrapper.take (w : Wrapper σ α) (num_elems : Nat) : Wrapper (Nat × σ) α :=
  ⟨(num_elems, w.state), take_next w.next⟩

/-- Embeds `iterator_wrapper::take_while` (lines 176-179). -/
def Wrapper.take_while (w : Wrapper σ α) (f : α → Bool) : Wrapper (Bool × σ) α :=
  ⟨(false, w.state), take_while_next f w.next⟩

/-- Runs `iterator_wrapper::each` at the wrapper level: the list of values handed
to the callback, in order. -/
def Wrapper.each (w : Wrapper σ α) (fuel : Nat) : List α :=
  (collect w.next fuel w.state).1

/-- Embeds `range(begin, last_func, next_func)` (lines 197-200). -/
def range_full {τ : Type} (b : τ) (last_func : τ → Bool)
    (next_func : τ → τ × τ) : Wrapper τ τ :=
  ⟨b, range_next last_func next_func⟩

/-- Embeds `range(begin, end)` (lines 202-205): termination test is `v == end`, the
step is `v++` — it returns the old value and increments the position. -/
def range_upto (b e : Int) : Wrapper Int Int :=
  range_full b (fun v => v == e) (fun v => (v, v + 1))

/-- Embeds `range(begin, end, next_func)` (lines 207-210): termination test is
`v == end`, the step function is user-supplied. -/
def range_upto_step (b e : Int) (next_func : Int → Int × Int) : Wrapper Int Int :=
  range_full b (fun v => v == e) next_func

/-! ## Helper lemmas -/

lemma take_while_next_ended (p : α → Bool) (bnext : σ → Option α × σ) (s : σ) :
    take_while_next p bnext (true, s) = (none, (true, s)) := rfl

lemma take_while_next_none_sets_ended (p : α → Bool) (bnext : σ → Option α × σ) :
    ∀ st : Bool × σ, (take_while_next p bnext st).1 = none →
      (take_while_next p bnext st).2.1 = true
  | (true, _), _ => rfl
  | (false, s), h => by
    simp only [take_while_next] at h ⊢
    rcases hb : bnext s with ⟨v, s'⟩
    cases v with
    | none => rfl
    | some x =>
      by_cases hp : p x
      · rw [hb] at h
        simp [hp] at h
      · simp [hp]

lemma iterN_take_while_ended (p : α → Bool) (bnext : σ → Option α × σ) (s : σ) :
    ∀ k : Nat, iterN (take_while_next p bnext) k (true, s) = (true, s)
  | 0 => rfl
  | k + 1 => iterN_take_while_ended p bnext s k

lemma iterN_take_zero (bnext : σ → Option α × σ) (s : σ) :
    ∀ k : Nat, iterN (take_next bnext) k (0, s) = (0, s)
  | 0 => rfl
  | k + 1 => iterN_take_zero bnext s k

/-! ## Claim theorems -/

/-- C1 (amended): exhaustion of `take_while` is sticky: once a call to
`next()` returns empty, every subsequent call also returns empty, for every
inner sequence, even one that could still produce values.  For `take`,
exhaustion reported because the remaining count is zero is sticky (such a
call also leaves the whole state unchanged); but an empty result forwarded
from the inner sequence while the remaining count was still positive is not
sticky: the counterexample shows a later call pulls the inner again and
returns the value it produces. -/
theorem take_while_sticky_take_zero_sticky :
    (∀ (τ : Type) (p : α → Bool) (bnext : τ → Option α × τ) (st : Bool × τ),
      (take_while_next p bnext st).1 = none →
      ∀ k : Nat,
        (take_while_next p bnext
          (iterN (take_while_next p bnext) k (take_while_next p bnext st).2)).1
          = none)
    ∧ (∀ (τ : Type) (bnext : τ → Option α × τ) (s : τ),
        take_next bnext (0, s) = (none, (0, s))
        ∧ ∀ k : Nat, (take_next bnext (iterN (take_next bnext) k (0, s))).1 = none) := by
  constructor
  · intro τ p bnext st h k
    have h1 : (take_while_next p bnext st).2.1 = true :=
      take_while_next_none_sets_ended p bnext st h
    have h2 : (take_while_next p bnext st).2
        = (true, (take_while_next p bnext st).2.2) := by
      rcases hst : (take_while_next p bnext st).2 with ⟨b, s'⟩
      rw [hst] at h1
      simp at h1
      rw [h1]
    rw [h2, iterN_take_while_ended, take_while_next_ended]
  · intro τ bnext s
    refine ⟨rfl, fun k => ?_⟩
    rw [iterN_take_zero]
    rfl

/-- C1 counterexample: a `take` instance with remaining count 2 over an inner
sequence whose first `next()` is empty and whose second produces 5: the first
call on the `take` instance returns empty, yet the second returns 5 —
exhaustion of `take` is not sticky when the count was still positive. -/
theorem take_not_sticky_counterexample :
    (take_next (traceNext fun k => if k = 0 then none else some (5 : Nat))
        (2, 0)).1 = none
    ∧ (take_next (traceNext fun k => if k = 0 then none else some (5 : Nat))
        ((take_next (traceNext fun k => if k = 0 then none else some (5 : Nat))
          (2, 0)).2)).1 = some 5 := by
  exact ⟨rfl, rfl⟩

theorem take_while_sticky_witness :
    (take_while_next (fun n => n < 3) listNext (false, [7, 1])).1 = none
    ∧ (take_while_next (fun n => n < 3) listNext
        (iterN (take_while_next (fun n => n < 3) listNext) 2
          (take_while_next (fun n => n < 3) listNext (false, [7, 1])).2)).1 = none
    ∧ take_next listNext (0, [7, 1]) = (none, (0, [7, 1]))
    ∧ (take_next listNext (iterN (take_next (α := Nat) listNext) 4 (0, [7, 1]))).1
        = none := by
  refine ⟨by decide, ?_, ?_, ?_⟩
  · exact take_while_sticky_take_zero_sticky.1 (List Nat) (fun n => n < 3)
      listNext (false, [7, 1]) (by decide) 2
  · exact (take_while_sticky_take_zero_sticky.2 (List Nat) listNext [7, 1]).1
  · exact (take_while_sticky_take_zero_sticky.2 (List Nat) listNext [7, 1]).2 4

lemma iterN_range_last {τ : Type} (is_last : τ → Bool) (fn : τ → τ × τ) (a : τ)
    (h : is_last a = true) : ∀ k : Nat, iterN (range_next is_last fn) k a = a := by
  intro k
  induction k with
  | zero => rfl
  | succ k ih =>
    show iterN (range_next is_last fn) k (range_next is_last fn a).2 = a
    rw [show range_next is_last fn a = (none, a) by simp [range_next, h]]
    exact ih

/-- C7: `range_iterator::next` returns empty exactly when `is_last` holds on
the current position; on that path the position is unchanged, so the
exhaustion is sticky (the position never moves again and every later call
returns empty); otherwise `next` invokes the step function and returns its
result — the emitted value, with the position advanced to the step's second
component. -/
theorem range_next_spec {τ : Type} (is_last : τ → Bool) (fn : τ → τ × τ) (a : τ) :
    ((range_next is_last fn a).1 = none ↔ is_last a = true)
    ∧ (is_last a = true →
        range_next is_last fn a = (none, a)
        ∧ ∀ k : Nat,
            (range_next is_last fn (iterN (range_next is_last fn) k a)).1 = none)
    ∧ (is_last a = false →
        range_next is_last fn a = (some (fn a).1, (fn a).2)) := by
  refine ⟨?_, ?_, ?_⟩
  · cases h : is_last a <;> simp [range_next, h]
  · intro h
    refine ⟨by simp [range_next, h], fun k => ?_⟩
    rw [iterN_range_last is_last fn a h k]
    simp [range_next, h]
  · intro h
    simp [range_next, h]

theorem range_next_spec_witness :
    ((fun v : Int => v == 5) 5 = true)
    ∧ range_next (fun v : Int => v == 5) (fun v => (v, v + 1)) 5 = (none, 5)
    ∧ (range_next (fun v : Int => v == 5) (fun v => (v, v + 1))
        (iterN (range_next (fun v : Int => v == 5) (fun v => (v, v + 1))) 3 5)).1
        = none
    ∧ ((fun v : Int => v == 5) 3 = false)
    ∧ range_next (fun v : Int => v == 5) (fun v => (v, v + 1)) 3 = (some 3, 4) := by
  refine ⟨by decide, ?_, ?_, by decide, ?_⟩
  · exact ((range_next_spec (fun v : Int => v == 5) (fun v => (v, v + 1)) 5).2.1
      (by decide)).1
  · exact ((range_next_spec (fun v : Int => v == 5) (fun v => (v, v + 1)) 5).2.1
      (by decide)).2 3
  · exact (range_next_spec (fun v : Int => v == 5) (fun v => (v, v + 1)) 3).2.2
      (by decide)

/-- C8: constructing a combinator chain evaluates nothing: for every `f`, the
freshly built `range(0, 1000000).map(f)` chain has an invocation counter of
zero for `f` and a range position still at the start, and zero `next()` calls
emit no values. -/
theorem construction_is_lazy (f : Int → Int) :
    ((range_upto 0 1000000).mapCount f).state = (0, 0)
    ∧ runN ((range_upto 0 1000000).mapCount f).next 0
        ((range_upto 0 1000000).mapCount f).state = ([], (0, 0)) :=
  ⟨rfl, rfl⟩

lemma take_collect_list (xs : List α) :
    ∀ (n fuel : Nat), n < fuel →
      (collect (take_next listNext) fuel (n, xs)).1 = xs.take n := by
  induction xs with
  | nil =>
    intro n fuel h
    cases fuel with
    | zero => omega
    | succ fuel =>
      cases n with
      | zero => simp [collect, take_next]
      | succ n => simp [collect, take_next, listNext]
  | cons x xs ih =>
    intro n fuel h
    cases fuel with
    | zero => omega
    | succ fuel =>
      cases n with
      | zero => simp [collect, take_next]
      | succ n =>
        have hr := ih n fuel (by omega)
        simp [collect, take_next, listNext, hr]

lemma take_trace_sum (t : Nat → Option α) (n : Nat) :
    ∀ (m : Nat) (st : Nat × Nat), st.1 + st.2 = n →
      (iterN (take_next (traceNext t)) m st).1
        + (iterN (take_next (traceNext t)) m st).2 = n := by
  intro m
  induction m with
  | zero => intro st h; exact h
  | succ m ih =>
    intro st h
    obtain ⟨num, k⟩ := st
    simp only [iterN]
    cases num with
    | zero => exact ih _ h
    | succ num =>
      simp only [take_next, traceNext]
      exact ih (num, k + 1) (by simp at h ⊢; omega)

/-- C2: over a finite inner sequence S, `take(n)` consumed via `each` yields
exactly the length-`min(n,|S|)` prefix of S; over a completely arbitrary
inner sequence, after any number m of calls on the take instance the number
of `next()` calls made on the inner sequence is at most n; and a call with
remaining count zero returns empty leaving the count and the inner state
untouched — in particular no inner call is made. -/
theorem take_spec :
    (∀ (xs : List α) (n fuel : Nat), n < fuel →
        (collect (take_next listNext) fuel (n, xs)).1 = xs.take n
        ∧ (xs.take n).length = min n xs.length)
    ∧ (∀ (t : Nat → Option α) (n m : Nat),
        (iterN (take_next (traceNext t)) m (n, 0)).2 ≤ n)
    ∧ (∀ (τ : Type) (bnext : τ → Option α × τ) (s : τ),
        take_next bnext (0, s) = (none, (0, s))) := by
  refine ⟨?_, ?_, ?_⟩
  · intro xs n fuel h
    exact ⟨take_collect_list xs n fuel h, by simp⟩
  · intro t n m
    have hs := take_trace_sum t n m (n, 0) (by simp)
    omega
  · intro τ bnext s
    rfl

theorem take_spec_witness :
    (2 < 4)
    ∧ (collect (take_next listNext) 4 (2, [5, 6, 7])).1 = [5, 6, 7].take 2
    ∧ ([5, 6, 7].take 2).length = min 2 [5, 6, 7].length
    ∧ (iterN (take_next (traceNext fun _ => some (1 : Nat))) 5 (3, 0)).2 ≤ 3
    ∧ take_next listNext (0, [9]) = (none, (0, [(9 : Nat)])) := by
  refine ⟨by decide, ?_, ?_, ?_, ?_⟩
  · exact (take_spec.1 [5, 6, 7] 2 4 (by decide)).1
  · exact (take_spec.1 [5, 6, 7] 2 4 (by decide)).2
  · exact take_spec.2.1 (fun _ => some 1) 3 5
  · exact take_spec.2.2 (List Nat) listNext [9]

lemma take_while_collect_list (p : α → Bool) :
    ∀ (xs : List α) (fuel : Nat), xs.length < fuel →
      collect (take_while_next p listNext) fuel (false, xs)
        = (xs.takeWhile p, (true, xs.drop ((xs.takeWhile p).length + 1))) := by
  intro xs
  induction xs with
  | nil =>
    intro fuel h
    cases fuel with
    | zero => omega
    | succ fuel => simp [collect, take_while_next, listNext]
  | cons x xs ih =>
    intro fuel h
    cases fuel with
    | zero => omega
    | succ fuel =>
      by_cases hp : p x
      · have hr := ih fuel (by simp at h; omega)
        simp [collect, take_while_next, listNext, hp, hr, List.takeWhile_cons]
      · simp [collect, take_while_next, listNext, hp, List.takeWhile_cons]

/-- C3: over a finite inner sequence S, `take_while(p)` consumed via `each`
yields exactly the maximal prefix of S on which p holds contiguously
(`List.takeWhile`), and ends with the inner state equal to S minus that
prefix and minus one further element: the first failing element was consumed
from the inner sequence and discarded, never returned.  A call in the ended
state returns empty with the whole state — in particular the inner state —
untouched, for every inner sequence; and whenever a call returns empty the
resulting state is ended, so after the first empty result no later call
touches the inner sequence. -/
theorem take_while_spec :
    (∀ (p : α → Bool) (xs : List α) (fuel : Nat), xs.length < fuel →
        collect (take_while_next p listNext) fuel (false, xs)
          = (xs.takeWhile p, (true, xs.drop ((xs.takeWhile p).length + 1))))
    ∧ (∀ (τ : Type) (p : α → Bool) (bnext : τ → Option α × τ) (s : τ),
        take_while_next p bnext (true, s) = (none, (true, s)))
    ∧ (∀ (τ : Type) (p : α → Bool) (bnext : τ → Option α × τ) (st : Bool × τ),
        (take_while_next p bnext st).1 = none →
        (take_while_next p bnext st).2.1 = true) := by
  refine ⟨?_, ?_, ?_⟩
  · intro p xs fuel h
    exact take_while_collect_list p xs fuel h
  · intro τ p bnext s
    rfl
  · intro τ p bnext st h
    exact take_while_next_none_sets_ended p bnext st h

theorem take_while_spec_witness :
    ([2, 4, 5, 6].length < 6)
    ∧ collect (take_while_next (fun n => n % 2 == 0) listNext) 6
        (false, [2, 4, 5, 6])
      = ([2, 4, 5, 6].takeWhile (fun n => n % 2 == 0),
          (true, [2, 4, 5, 6].drop
            (([2, 4, 5, 6].takeWhile fun n => n % 2 == 0).length + 1)))
    ∧ take_while_next (fun n : Nat => n % 2 == 0) listNext (true, [8])
        = (none, (true, [8]))
    ∧ (take_while_next (fun n : Nat => n % 2 == 0) listNext (false, [3])).2.1
        = true := by
  refine ⟨by decide, ?_, ?_, ?_⟩
  · exact take_while_spec.1 (fun n => n % 2 == 0) [2, 4, 5, 6] 6 (by decide)
  · exact take_while_spec.2.1 (List Nat) (fun n => n % 2 == 0) listNext [8]
  · exact take_while_spec.2.2 (List Nat) (fun n => n % 2 == 0) listNext
      (false, [3]) (by decide)

lemma filter_next_fuel_irrel (p : α → Bool) :
    ∀ (xs : List α) (f g : Nat), xs.length < f → xs.length < g →
      filter_next p listNext f xs = filter_next p listNext g xs := by
  intro xs
  induction xs with
  | nil =>
    intro f g hf hg
    cases f with
    | zero => omega
    | succ f =>
      cases g with
      | zero => omega
      | succ g => simp [filter_next, listNext]
  | cons x xs ih =>
    intro f g hf hg
    cases f with
    | zero => omega
    | succ f =>
      cases g with
      | zero => omega
      | succ g =>
        by_cases hp : p x
        · simp [filter_next, listNext, hp]
        · simp only [filter_next, listNext]
          rw [if_neg hp, if_neg hp]
          exact ih f g (by simp at hf; omega) (by simp at hg; omega)

lemma filter_next_list (p : α → Bool) :
    ∀ (xs : List α) (fuel : Nat), xs.length < fuel →
      filter_next p listNext fuel xs
        = ((xs.filter p).head?, (xs.dropWhile (fun a => ! p a)).tail) := by
  intro xs
  induction xs with
  | nil =>
    intro fuel h
    cases fuel with
    | zero => omega
    | succ fuel => simp [filter_next, listNext]
  | cons x xs ih =>
    intro fuel h
    cases fuel with
    | zero => omega
    | succ fuel =>
      by_cases hp : p x
      · simp [filter_next, listNext, hp, List.filter_cons, List.dropWhile_cons]
      · have hr := ih fuel (by simp at h; omega)
        simp [filter_next, listNext, hp, List.filter_cons, List.dropWhile_cons, hr]

lemma filter_collect_list (p : α → Bool) :
    ∀ (xs : List α) (F ofuel : Nat), xs.length < F → (xs.filter p).length < ofuel →
      collect (filter_next p listNext F) ofuel xs = (xs.filter p, []) := by
  intro xs
  induction xs with
  | nil =>
    intro F ofuel hF ho
    cases F with
    | zero => omega
    | succ F =>
      cases ofuel with
      | zero => omega
      | succ ofuel => simp [collect, filter_next, listNext]
  | cons x xs ih =>
    intro F ofuel hF ho
    cases F with
    | zero => omega
    | succ F =>
      cases ofuel with
      | zero => omega
      | succ ofuel =>
        by_cases hp : p x
        · have hcall : filter_next p listNext (F + 1) (x :: xs) = (some x, xs) := by
            simp [filter_next, listNext, hp]
          have hr := ih (F + 1) ofuel (by simp at hF; omega)
            (by simp [List.filter_cons, hp] at ho ⊢; omega)
          simp only [collect, hcall]
          rw [hr]
          simp [List.filter_cons, hp]
        · have hx : filter_next p listNext (F + 1) (x :: xs)
              = filter_next p listNext (F + 1) xs := by
            have h1 : filter_next p listNext (F + 1) (x :: xs)
                = filter_next p listNext F xs := by
              simp only [filter_next, listNext]
              simp only [if_neg hp]
            rw [h1]
            exact filter_next_fuel_irrel p xs F (F + 1)
              (by simp at hF; omega) (by simp at hF; omega)
          have hr := ih (F + 1) (ofuel + 1) (by simp at hF; omega)
            (by simpa [List.filter_cons, hp] using ho)
          calc collect (filter_next p listNext (F + 1)) (ofuel + 1) (x :: xs)
              = collect (filter_next p listNext (F + 1)) (ofuel + 1) xs := by
                simp only [collect, hx]
            _ = ((x :: xs).filter p, []) := by
                rw [hr]
                simp [List.filter_cons, hp]

/-- C4: over a finite inner sequence S, `filter(p)` consumed via `each`
yields exactly the subsequence of S's elements satisfying p in S's original
order (`List.filter` — no reordering, no duplication), leaving the inner
sequence fully consumed; and a single `next()` call irrecoverably consumes
the rejected elements ahead of the first passing one: it returns the first
passing element of the inner sequence (empty if there is none) and leaves as
inner state only what follows that element. -/
theorem filter_spec :
    (∀ (p : α → Bool) (xs : List α) (F ofuel : Nat),
        xs.length < F → (xs.filter p).length < ofuel →
        collect (filter_next p listNext F) ofuel xs = (xs.filter p, []))
    ∧ (∀ (p : α → Bool) (xs : List α) (fuel : Nat), xs.length < fuel →
        filter_next p listNext fuel xs
          = ((xs.filter p).head?, (xs.dropWhile (fun a => ! p a)).tail)) := by
  refine ⟨?_, ?_⟩
  · intro p xs F ofuel hF ho
    exact filter_collect_list p xs F ofuel hF ho
  · intro p xs fuel h
    exact filter_next_list p xs fuel h

theorem filter_spec_witness :
    ([1, 2, 3, 4].length < 5)
    ∧ (([1, 2, 3, 4].filter fun n => n % 2 == 0).length < 3)
    ∧ collect (filter_next (fun n => n % 2 == 0) listNext 5) 3 [1, 2, 3, 4]
        = ([1, 2, 3, 4].filter fun n => n % 2 == 0, [])
    ∧ filter_next (fun n => n % 2 == 0) listNext 5 [1, 2, 3, 4]
        = (([1, 2, 3, 4].filter fun n => n % 2 == 0).head?,
            ([1, 2, 3, 4].dropWhile fun a => ! (a % 2 == 0)).tail) := by
  refine ⟨by decide, by decide, ?_, ?_⟩
  · exact filter_spec.1 (fun n => n % 2 == 0) [1, 2, 3, 4] 5 3
      (by decide) (by decide)
  · exact filter_spec.2 (fun n => n % 2 == 0) [1, 2, 3, 4] 5 (by decide)

lemma map_collect_list (f : α → β) :
    ∀ (xs : List α) (fuel : Nat), xs.length < fuel →
      collect (map_next f listNext) fuel xs = (xs.map f, []) := by
  intro xs
  induction xs with
  | nil =>
    intro fuel h
    cases fuel with
    | zero => omega
    | succ fuel => simp [collect, map_next, listNext]
  | cons x xs ih =>
    intro fuel h
    cases fuel with
    | zero => omega
    | succ fuel =>
      have hr := ih fuel (by simp at h; omega)
      simp [collect, map_next, listNext, hr]

lemma map_count_runN_list (f : α → β) :
    ∀ (m : Nat) (xs : List α) (c : Nat),
      runN (map_next_count f listNext) m (xs, c)
        = ((xs.take m).map f, (xs.drop m, c + min m xs.length)) := by
  intro m
  induction m with
  | zero =>
    intro xs c
    simp [runN]
  | succ m ih =>
    intro xs c
    cases xs with
    | nil =>
      have hr := ih [] c
      simp [runN, map_next_count, listNext, hr]
    | cons x xs =>
      have hr := ih xs (c + 1)
      simp [runN, map_next_count, listNext, hr, Nat.succ_min_succ]
      omega

/-- C5: over a finite inner sequence S, `map(f)` consumed via `each` produces
exactly the element-wise image of S — same length, same order — and, with the
invocation-counting instrumentation, after any number m of `next()` calls the
produced values are the images of exactly the first min(m,|S|) elements of S
and `f` has been invoked exactly min(m,|S|) times: at most once per produced
element, only when that element is requested, and never on an element beyond
the last one consumed. -/
theorem map_spec :
    (∀ (f : α → β) (xs : List α) (fuel : Nat), xs.length < fuel →
        collect (map_next f listNext) fuel xs = (xs.map f, [])
        ∧ (xs.map f).length = xs.length)
    ∧ (∀ (f : α → β) (xs : List α) (m : Nat),
        runN (map_next_count f listNext) m (xs, 0)
          = ((xs.take m).map f, (xs.drop m, min m xs.length))) := by
  refine ⟨?_, ?_⟩
  · intro f xs fuel h
    exact ⟨map_collect_list f xs fuel h, by simp⟩
  · intro f xs m
    have hr := map_count_runN_list f m xs 0
    simpa using hr

theorem map_spec_witness :
    ([3, 4, 5].length < 4)
    ∧ collect (map_next (fun n => n * 2) listNext) 4 [3, 4, 5]
        = ([3, 4, 5].map fun n => n * 2, [])
    ∧ ([3, 4, 5].map fun n => n * 2).length = [3, 4, 5].length
    ∧ runN (map_next_count (fun n => n * 2) listNext) 2 ([3, 4, 5], 0)
        = (([3, 4, 5].take 2).map fun n => n * 2,
            ([3, 4, 5].drop 2, min 2 [3, 4, 5].length)) := by
  refine ⟨by decide, ?_, ?_, ?_⟩
  · exact (map_spec.1 (fun n => n * 2) [3, 4, 5] 4 (by decide)).1
  · exact (map_spec.1 (fun n => n * 2) [3, 4, 5] 4 (by decide)).2
  · exact map_spec.2 (fun n => n * 2) [3, 4, 5] 2

lemma collect_range_stable {τ : Type} (is_last : τ → Bool) (fn : τ → τ × τ)
    (a : τ) (h : is_last a = true) :
    ∀ m : Nat, collect (range_next is_last fn) m a = ([], a) := by
  intro m
  cases m with
  | zero => rfl
  | succ m => simp [collect, range_next, h]

lemma collect_range_upto_head (e b c : Int) (hb : (b == e) = false)
    (hc : b + 1 = c) (m : Nat) :
    (collect (range_next (fun v : Int => v == e) (fun v => (v, v + 1))) (m + 1) b).1
      = b :: (collect (range_next (fun v : Int => v == e)
          (fun v => (v, v + 1))) m c).1 := by
  subst hc
  simp [collect, range_next, hb]

/-- C9: `range(0, 5)` consumed via `each` produces exactly the values
0, 1, 2, 3, 4 in that order and nothing else — the end value 5 is excluded —
for every fuel large enough to complete the run. -/
theorem range_upto_each_spec (fuel : Nat) (h : 6 ≤ fuel) :
    (range_upto 0 5).each fuel = [0, 1, 2, 3, 4] := by
  obtain ⟨k, rfl⟩ : ∃ k, fuel = k + 6 := ⟨fuel - 6, by omega⟩
  show (collect (range_next (fun v : Int => v == 5) (fun v => (v, v + 1)))
      (k + 6) 0).1 = [0, 1, 2, 3, 4]
  rw [show k + 6 = k + 5 + 1 by omega,
      collect_range_upto_head 5 0 1 (by decide) (by norm_num) (k + 5),
      show k + 5 = k + 4 + 1 by omega,
      collect_range_upto_head 5 1 2 (by decide) (by norm_num) (k + 4),
      show k + 4 = k + 3 + 1 by omega,
      collect_range_upto_head 5 2 3 (by decide) (by norm_num) (k + 3),
      show k + 3 = k + 2 + 1 by omega,
      collect_range_upto_head 5 3 4 (by decide) (by norm_num) (k + 2),
      show k + 2 = k + 1 + 1 by omega,
      collect_range_upto_head 5 4 5 (by decide) (by norm_num) (k + 1),
      collect_range_stable (fun v : Int => v == 5) (fun v => (v, v + 1)) 5
        (by decide) (k + 1)]

theorem range_upto_each_witness :
    6 ≤ 10 ∧ (range_upto 0 5).each 10 = [0, 1, 2, 3, 4] :=
  ⟨by decide, range_upto_each_spec 10 (by decide)⟩

/-- Advances the position j times using only the position-update component of
the step function (the second component: the value `actual_` holds after the
call). -/
def stepPos {τ : Type} (next_func : τ → τ × τ) : Nat → τ → τ
  | 0, v => v
  | k + 1, v => stepPos next_func k (next_func v).2

lemma range_iterN_eq_stepPos (e : Int) (st : Int → Int × Int) :
    ∀ (m : Nat) (b : Int), (∀ j, j < m → stepPos st j b ≠ e) →
      iterN (range_next (fun x : Int => x == e) st) m b = stepPos st m b := by
  intro m
  induction m with
  | zero => intro b _; rfl
  | succ m ih =>
    intro b hb
    have h0 : b ≠ e := by
      have h00 := hb 0 (by omega)
      simpa [stepPos] using h00
    show iterN (range_next (fun x : Int => x == e) st) m
        (range_next (fun x : Int => x == e) st b).2 = stepPos st (m + 1) b
    rw [show range_next (fun x : Int => x == e) st b
        = (some (st b).1, (st b).2) by simp [range_next, h0]]
    show iterN (range_next (fun x : Int => x == e) st) m (st b).2
        = stepPos st m (st b).2
    exact ih (st b).2 (fun j hj => by
      have hbj := hb (j + 1) (by omega)
      simpa [stepPos] using hbj)

/-- C10: the convenience overloads of `range` build the termination test as
exact equality of the current position with the end value; consequently
`next()` returns a present value — the step function's result — whenever the
current position differs from the end value; and for a step function whose
orbit from the start never makes the position exactly equal to the end value,
the sequence never exhausts: after any number m of calls the next call still
returns a present value. -/
theorem range_upto_eq_test_spec :
    (∀ (b e : Int) (st : Int → Int × Int),
        range_upto_step b e st = range_full b (fun v => v == e) st
        ∧ range_upto b e = range_full b (fun v => v == e) (fun v => (v, v + 1)))
    ∧ (∀ (e : Int) (st : Int → Int × Int) (v : Int), v ≠ e →
        range_next (fun x : Int => x == e) st v = (some (st v).1, (st v).2))
    ∧ (∀ (e : Int) (st : Int → Int × Int) (b : Int) (m : Nat),
        ((List.range (m + 1)).all fun j => ! (stepPos st j b == e)) = true →
        (range_next (fun x : Int => x == e) st
            (iterN (range_next (fun x : Int => x == e) st) m b)).1
          = some (st (stepPos st m b)).1) := by
  refine ⟨?_, ?_, ?_⟩
  · intro b e st
    exact ⟨rfl, rfl⟩
  · intro e st v hv
    simp [range_next, hv]
  · intro e st b m hall
    have hne : ∀ j, j < m + 1 → stepPos st j b ≠ e := by
      intro j hj
      have hj2 := List.all_eq_true.mp hall _ (List.mem_range.mpr hj)
      simpa using hj2
    rw [range_iterN_eq_stepPos e st m b (fun j hj => hne j (by omega))]
    simp [range_next, hne m (by omega)]

theorem range_upto_eq_test_witness :
    range_upto_step 0 5 (fun v => (v, v + 2))
        = range_full 0 (fun v : Int => v == 5) (fun v => (v, v + 2))
    ∧ ((2 : Int) ≠ 5)
    ∧ range_next (fun x : Int => x == 5) (fun v => (v, v + 2)) 2 = (some 2, 4)
    ∧ ((List.range 4).all
        fun j => ! (stepPos (fun v : Int => (v, v + 2)) j 0 == 5)) = true
    ∧ (range_next (fun x : Int => x == 5) (fun v => (v, v + 2))
        (iterN (range_next (fun x : Int => x == 5) (fun v => (v, v + 2))) 3 0)).1
      = some 6 := by
  refine ⟨?_, by decide, ?_, by decide, ?_⟩
  · exact (range_upto_eq_test_spec.1 0 5 (fun v => (v, v + 2))).1
  · exact range_upto_eq_test_spec.2.1 5 (fun v => (v, v + 2)) 2 (by decide)
  · exact range_upto_eq_test_spec.2.2 5 (fun v => (v, v + 2)) 0 3 (by decide)
